import Mathlib

/-!
Verification of the lapped-transforms utility module (src/utils.py).

The module manipulates 2-D numpy arrays through stride tricks.  We embed a
numpy strided view shallowly: a view is a buffer identifier together with an
element offset, a shape `(rows, cols)` and per-dimension element strides
`(rstride, cstride)` (numpy stores byte strides; every array here holds
float64 values, so byte strides are element strides times a fixed factor and
we work directly with element strides).  The heap is a map from buffer id and
cell index to a value.  `bufLen` records the allocation length of the buffer
a view is based on (used to reason about out-of-bounds views).

`np.lib.stride_tricks.as_strided(x, shape, strides)` keeps the base pointer
and buffer of `x` and merely replaces shape and strides; it performs no
bounds checking.  `x.copy()` materializes a fresh C-contiguous buffer holding
the row-major content of the view.  `x.ravel()` returns a view when `x` is
C-contiguous and a fresh copy otherwise.  Negative shape entries make numpy
raise, and the functions under verification are only ever applied where the
integer shape arithmetic is nonnegative; natural subtraction below agrees
with the python integer arithmetic on that domain.
-/

namespace LappedTransforms

/-- A numpy-style strided 2-D view: buffer id, element offset of the base
pointer, shape, element strides, and the allocation length of the buffer. -/
structure Arr where
  bufId : ℕ
  off : ℕ
  rows : ℕ
  cols : ℕ
  rstride : ℕ
  cstride : ℕ
  bufLen : ℕ
  deriving DecidableEq, Repr

/-- The heap: buffer id and cell index to stored value. -/
abbrev Mem (α : Type) : Type := ℕ → ℕ → α

/-- Element offset of logical coordinate `(i, j)` of a view. -/
def Arr.idx (a : Arr) (i j : ℕ) : ℕ :=
  a.off + i * a.rstride + j * a.cstride

/-- Read the logical element `(i, j)` of view `a` from the heap. -/
def readCell {α : Type} (m : Mem α) (a : Arr) (i j : ℕ) : α :=
  m a.bufId (a.idx i j)

/-- Overwrite the single cell addressed by `(i, j)` of view `a`. -/
def writeCell {α : Type} (m : Mem α) (a : Arr) (i j : ℕ) (v : α) : Mem α :=
  fun b k => if b = a.bufId ∧ k = a.idx i j then v else m b k

/-- `np.lib.stride_tricks.as_strided(x, shape=(r, c), strides=x.strides)`:
same buffer, base pointer and strides, new shape, no bounds check. -/
def as_strided (a : Arr) (r c : ℕ) : Arr :=
  { a with rows := r, cols := c }

/-- The heap after `x.copy()` into fresh buffer `nid`: the new buffer holds
the row-major linearization of the view content; all other buffers keep
their content. -/
def copyMem {α : Type} (m : Mem α) (a : Arr) (nid : ℕ) : Mem α :=
  fun b k =>
    if b = nid ∧ k < a.rows * a.cols then readCell m a (k / a.cols) (k % a.cols)
    else m b k

/-- The array object returned by `x.copy()`: fresh C-contiguous buffer of the
same shape. -/
def copyOut (a : Arr) (nid : ℕ) : Arr :=
  ⟨nid, 0, a.rows, a.cols, a.cols, 1, a.rows * a.cols⟩

/-- `x.copy()` as a heap transformer returning the new array. -/
def npCopy {α : Type} (m : Mem α) (a : Arr) (nid : ℕ) : Mem α × Arr :=
  (copyMem m a nid, copyOut a nid)

/-- A 1-D view of the cells of a C-contiguous array, as produced by
`x.ravel()` on contiguous input (modelled with one row). -/
def oneD (a : Arr) : Arr :=
  ⟨a.bufId, a.off, 1, a.rows * a.cols, a.rows * a.cols, 1, a.bufLen⟩

/-- `x.ravel()`: a view when `x` is C-contiguous, otherwise a row-major copy
into the fresh buffer `nid`. -/
def ravel {α : Type} (m : Mem α) (a : Arr) (nid : ℕ) : Mem α × Arr :=
  if a.rstride = a.cols ∧ a.cstride = 1 then (m, oneD a)
  else
    let p := npCopy m a nid
    (p.1, oneD p.2)

/-- `utils.lap(x, L, copy)`: optional copy, then
`as_strided(x, shape=(x.shape[0] - L + 1, x.shape[1] * L), strides=x.strides)`.
Shape arithmetic is the python integer arithmetic, written `rows + 1 - L`
so that natural subtraction agrees with it whenever the result is
nonnegative. -/
def lap {α : Type} (m : Mem α) (x : Arr) (L : ℕ) (cp : Bool) (nid : ℕ) :
    Mem α × Arr :=
  let p := if cp then npCopy m x nid else (m, x)
  (p.1, as_strided p.2 (p.2.rows + 1 - L) (p.2.cols * L))

/-- The view produced by `lap` with `copy=False` (pure metadata change). -/
def lapView (x : Arr) (L : ℕ) : Arr :=
  as_strided x (x.rows + 1 - L) (x.cols * L)

/-- `utils.unlap(x, L, copy)`:
`as_strided(x, shape=(x.shape[0] + L - 1, x.shape[1] // L), strides=x.strides)`,
then an optional copy. -/
def unlap {α : Type} (m : Mem α) (x : Arr) (L : ℕ) (cp : Bool) (nid : ℕ) :
    Mem α × Arr :=
  let outval := as_strided x (x.rows + L - 1) (x.cols / L)
  if cp then npCopy m outval nid else (m, outval)

/-- The view produced by `unlap` with `copy=False`. -/
def unlapView (x : Arr) (L : ℕ) : Arr :=
  as_strided x (x.rows + L - 1) (x.cols / L)

/-- `utils.flatten(x, L, copy)`: `unlap(x, L, copy=copy).ravel()`. -/
def flatten {α : Type} (m : Mem α) (x : Arr) (L : ℕ) (cp : Bool)
    (nid nid2 : ℕ) : Mem α × Arr :=
  let p := unlap m x L cp nid
  ravel p.1 p.2 nid2

/-- `utils.lap_like(x, y)`: `as_strided(x, shape=y.shape, strides=y.strides)`.
Buffer, base pointer and allocation length come from `x`; shape and strides
come from `y`.  No bounds checking is performed. -/
def lap_like (x y : Arr) : Arr :=
  ⟨x.bufId, x.off, y.rows, y.cols, y.rstride, y.cstride, x.bufLen⟩

/-- `utils.copy(x, L)`: `new = flatten(x, copy=True)` followed by
`lap_like(new, x)`.  Note the source does not forward `L` to `flatten`,
which therefore runs with its default overlap factor 2; the parameter `L`
is accepted and ignored. -/
def copy {α : Type} (m : Mem α) (x : Arr) (L : ℕ) (nid nid2 : ℕ) :
    Mem α × Arr :=
  let p := flatten m x 2 true nid nid2
  (p.1, lap_like p.2 x)

/-- Python-level errors the modelled operations can raise: a numpy
broadcast failure on assignment, and the ZeroDivisionError python raises
when a float is divided by the integer zero. -/
inductive NpError where
  | broadcastError
  | zeroDivisionError
  deriving DecidableEq, Repr

/-- Matrix-vector product `T @ v` with `T` read as a `K`-by-`C` matrix and
`v` of length `C` (the result is only consulted below index `K`). -/
def matvec {α : Type} [CommRing α] (C : ℕ) (T : ℕ → ℕ → α) (v : ℕ → α) :
    ℕ → α :=
  fun k => ((List.range C).map (fun j => T k j * v j)).sum

/-- Write the first `n` cells of row `i` of view `a` (values `w 0 .. w (n-1)`),
in increasing column order, as numpy slice assignment does. -/
def writeRowN {α : Type} (m : Mem α) (a : Arr) (i : ℕ) (w : ℕ → α) :
    ℕ → Mem α
  | 0 => m
  | n + 1 => writeCell (writeRowN m a i w n) a i n (w n)

/-- Slice assignment `x[i, :] = w` (the whole row). -/
def writeRow {α : Type} (m : Mem α) (a : Arr) (i : ℕ) (w : ℕ → α) : Mem α :=
  writeRowN m a i w a.cols

/-- Assignment of a length-`K` vector into row `i` (length `a.cols`) with
numpy broadcasting: exact length match writes elementwise, a length-1
source broadcasts its single value, anything else raises. -/
def assignRow {α : Type} (m : Mem α) (a : Arr) (i K : ℕ) (w : ℕ → α) :
    Except NpError (Mem α) :=
  if K = a.cols then .ok (writeRow m a i w)
  else if K = 1 then .ok (writeRow m a i (fun _ => w 0))
  else .error .broadcastError

/-- The loop of `utils.transform` after `n` iterations: for each
`i < n` in increasing order, `x[i, :] = T @ x[i, :]`, where the right-hand
side is evaluated into a temporary from the current heap before the row is
written.  `K` is the number of rows of `T`. -/
def transformGo {α : Type} [CommRing α] (m : Mem α) (x : Arr) (K : ℕ)
    (T : ℕ → ℕ → α) : ℕ → Except NpError (Mem α)
  | 0 => .ok m
  | n + 1 =>
    match transformGo m x K T n with
    | .error e => .error e
    | .ok mm => assignRow mm x n K (matvec x.cols T (fun j => readCell mm x n j))

/-- `utils.transform(x, T)`: the in-place row loop over all rows, returning
the (mutated) heap together with the very array object `x` that was passed
in (`return x` in the source). -/
def transform {α : Type} [CommRing α] (m : Mem α) (x : Arr) (K : ℕ)
    (T : ℕ → ℕ → α) : Except NpError (Mem α × Arr) :=
  (transformGo m x K T x.rows).map (fun mm => (mm, x))

/-- The cell `(b, k)` of the heap resulting from a `transform` call, when the
call succeeded. -/
def cellOf {α : Type} (e : Except NpError (Mem α × Arr)) (b k : ℕ) :
    Option α :=
  e.toOption.map (fun p => p.1 b k)

/-!  Kernel matrices.  `np.arange(N)` for an integer `N` has length
`max N 0 = N.toNat`, so `np.meshgrid(np.arange(M), np.arange(N))` produces
arrays of shape `(N.toNat, M.toNat)`; the source contains no validation.
For negative `N` every shape entry is `0` and the calls return empty
matrices (the nonpositive argument of `np.sqrt` only triggers a
floating-point warning, never an exception); for `N = 0`, however, the
return expression evaluates `np.pi / N` - a python float divided by the
integer zero - which raises ZeroDivisionError after the arange/meshgrid
work.  Python floor division `//` by the positive constant `2` coincides
with euclidean division `/` on `ℤ`. -/

/-- Outcome of `utils.mdct(N)`: a ZeroDivisionError from `np.pi / N` when
`N = 0`, otherwise completion with shape
`(len(np.arange(N)), len(np.arange(N * 2)))`. -/
def mdctShape (N : ℤ) : Except NpError (ℕ × ℕ) :=
  if N = 0 then .error .zeroDivisionError
  else .ok (N.toNat, (N * 2).toNat)

/-- Entry `(k, n)` of the array returned by `utils.mdct(N)`:
`shift = -N // 2` (python floor division applied to `-N`), entry
`cos(pi / N * (n + shift + 1/2) * (k + 1/2)) / sqrt(N / 2)`. -/
noncomputable def mdct (N : ℤ) (k n : ℕ) : ℝ :=
  Real.cos (Real.pi / (N : ℝ) *
      ((n : ℝ) + (((-N) / 2 : ℤ) : ℝ) + 1 / 2) * ((k : ℝ) + 1 / 2)) /
    Real.sqrt ((N : ℝ) / 2)

/-- Entry `(k, n)` of the matrix the claim describes: identical to `mdct`
except that the shift term is `-(N // 2)` (floor division applied to `N`,
then negated), as the specification states. -/
noncomputable def mdctClaimedEntry (N : ℤ) (k n : ℕ) : ℝ :=
  Real.cos (Real.pi / (N : ℝ) *
      ((n : ℝ) + ((-(N / 2) : ℤ) : ℝ) + 1 / 2) * ((k : ℝ) + 1 / 2)) /
    Real.sqrt ((N : ℝ) / 2)

/-- Outcome of `utils.dct4(N, M)` (`M = N` when the second argument is
omitted, i.e. `None`): a ZeroDivisionError from `np.pi / N` when `N = 0`,
otherwise completion with shape `(N.toNat, M.toNat)`. -/
def dct4Shape (N : ℤ) (M : Option ℤ) : Except NpError (ℕ × ℕ) :=
  if N = 0 then .error .zeroDivisionError
  else .ok (N.toNat, (M.getD N).toNat)

/-- Entry `(k, n)` of the array returned by `utils.dct4(N, M)`:
`cos(pi / N * (n + 1/2) * (k + 1/2)) / sqrt(N / 2)`. -/
noncomputable def dct4 (N : ℤ) (k n : ℕ) : ℝ :=
  Real.cos (Real.pi / (N : ℝ) * ((n : ℝ) + 1 / 2) * ((k : ℝ) + 1 / 2)) /
    Real.sqrt ((N : ℝ) / 2)

/-!  `utils.make_twoframe`.  The input matrix `data` is read-only and the
output is freshly allocated, so no aliasing is involved; we model matrices
functionally with explicit dimensions.  Numpy slices clip their bounds to
the array extent (modelled with `min`), and slice assignment broadcasts a
source dimension that is either equal to the destination dimension or
equal to one, raising otherwise. -/

/-- A functional matrix with explicit dimensions. -/
structure MatF (α : Type) where
  rows : ℕ
  cols : ℕ
  val : ℕ → ℕ → α

/-- `np.eye(M)`. -/
def eye {α : Type} [Zero α] [One α] (M : ℕ) : MatF α :=
  ⟨M, M, fun i j => if i = j then 1 else 0⟩

/-- The submatrix `d[r0:r1, c0:c1]` with numpy clipping of the bounds. -/
def slice {α : Type} (d : MatF α) (r0 r1 c0 c1 : ℕ) : MatF α :=
  ⟨min r1 d.rows - min r0 d.rows, min c1 d.cols - min c0 d.cols,
    fun i j => d.val (min r0 d.rows + i) (min c0 d.cols + j)⟩

/-- Slice assignment `out[r0:r1, c0:c1] = src` with numpy clipping and
broadcasting; raises a broadcast error when the source shape fits the
destination block in neither the exact nor the length-one sense. -/
def setBlock {α : Type} (out : MatF α) (r0 r1 c0 c1 : ℕ) (src : MatF α) :
    Except NpError (MatF α) :=
  if (src.rows = min r1 out.rows - min r0 out.rows ∨ src.rows = 1) ∧
      (src.cols = min c1 out.cols - min c0 out.cols ∨ src.cols = 1) then
    .ok ⟨out.rows, out.cols, fun i j =>
      if min r0 out.rows ≤ i ∧ i < min r1 out.rows ∧
          min c0 out.cols ≤ j ∧ j < min c1 out.cols then
        src.val (if src.rows = 1 then 0 else i - min r0 out.rows)
          (if src.cols = 1 then 0 else j - min c0 out.cols)
      else out.val i j⟩
  else .error .broadcastError

/-- `utils.make_twoframe(data, trim)`: `N = data.shape[0] // 2`,
`out = np.eye(data.shape[1])`, `out[N:2N, N:3N] = data[N:, 2N:]`,
`out[2N:3N, N:3N] = data[:N, :2N]`, then optionally `out[N:-N, N:-N]`
(a python negative stop index `-N` means `M - N` for positive `N` and
`0` for `N = 0`). -/
def make_twoframe {α : Type} [Zero α] [One α] (data : MatF α) (trim : Bool) :
    Except NpError (MatF α) :=
  let N := data.rows / 2
  let M := data.cols
  match setBlock (eye M) N (2 * N) N (3 * N)
      (slice data N data.rows (2 * N) data.cols) with
  | .error e => .error e
  | .ok out1 =>
    match setBlock out1 (2 * N) (3 * N) N (3 * N)
        (slice data 0 N 0 (2 * N)) with
    | .error e => .error e
    | .ok out2 =>
      .ok (if trim then
            slice out2 N (if N = 0 then 0 else M - N)
              N (if N = 0 then 0 else M - N)
          else out2)

/-- Every cell a view addresses lies inside its buffer allocation. -/
def inBounds (a : Arr) : Prop :=
  ∀ i, i < a.rows → ∀ j, j < a.cols → a.idx i j < a.bufLen

/-- Number of buffer elements a view with zero offset addresses: one past
the largest addressed cell (zero for an empty view). -/
def span (a : Arr) : ℕ :=
  if a.rows = 0 ∨ a.cols = 0 then 0
  else (a.rows - 1) * a.rstride + (a.cols - 1) * a.cstride + 1

/-- Composition `unlap(lap(x, L), L)` with both copies taken (the default
`copy=True` on both calls), starting from heap `m`; `n1`, `n2` are the fresh
buffer ids of the two copies. -/
def roundtrip {α : Type} (m : Mem α) (x : Arr) (L n1 n2 : ℕ) : Mem α × Arr :=
  let p := lap m x L true n1
  unlap p.1 p.2 L true n2

/-- Composition `flatten(lap(x, L), L)` with the default copies. -/
def lapFlatten {α : Type} (m : Mem α) (x : Arr) (L n1 n3 n4 : ℕ) :
    Mem α × Arr :=
  let p := lap m x L true n1
  flatten p.1 p.2 L true n3 n4

/-- Heap after `transform` has processed the first `n` rows of a plain
contiguous framed signal (row stride = `cols`): every already-processed cell
holds the matrix-vector product of `T` with its original row; everything
else is untouched.  Rows of such a signal are disjoint in memory, so each
product reads only original values. -/
def plainStage {α : Type} [CommRing α] (m : Mem α) (x : Arr)
    (T : ℕ → ℕ → α) (n : ℕ) : Mem α :=
  fun b k =>
    if b = x.bufId ∧ x.off ≤ k ∧ k < x.off + n * x.cols then
      matvec x.cols T (fun j => readCell m x ((k - x.off) / x.cols) j)
        ((k - x.off) % x.cols)
    else m b k

/-- One step of the sequential left-to-right recurrence on the underlying
buffer of an overlap-2 lapped view with frame stride `C`: frame window `i`
(buffer cells `i*C .. i*C + 2*C - 1`) is replaced in place by `T` applied to
its current content. -/
def seqBuf {α : Type} [CommRing α] (C : ℕ) (T : ℕ → ℕ → α) (b : ℕ → α)
    (i : ℕ) : ℕ → α :=
  fun t =>
    if i * C ≤ t ∧ t < i * C + 2 * C then
      ((List.range (2 * C)).map
        (fun j => T (t - i * C) j * b (i * C + j))).sum
    else b t

/-- The sequential recurrence after `n` windows, left to right. -/
def seqRecBuf {α : Type} [CommRing α] (C : ℕ) (T : ℕ → ℕ → α) (b : ℕ → α) :
    ℕ → ℕ → α
  | 0 => b
  | n + 1 => seqBuf C T (seqRecBuf C T b n) n

/-- Entry `(i, j)` of the matrix the specification describes for
`make_twoframe(data, False)` on `data` of shape `(2N, 4N)`: the `M`-by-`M`
identity with rows `[N, 2N)` at columns `[N, 3N)` overwritten by `data`
rows `[N, 2N)` columns `[2N, 4N)`, and rows `[2N, 3N)` at the same columns
overwritten by `data` rows `[0, N)` columns `[0, 2N)`. -/
def twoframeEntry {α : Type} [Zero α] [One α] (N : ℕ) (data : MatF α)
    (i j : ℕ) : α :=
  if N ≤ i ∧ i < 2 * N ∧ N ≤ j ∧ j < 3 * N then data.val i (j + N)
  else if 2 * N ≤ i ∧ i < 3 * N ∧ N ≤ j ∧ j < 3 * N then
    data.val (i - 2 * N) (j - N)
  else if i = j then 1 else 0

/-! Helper lemmas about the model. -/

theorem rowMajor_div {C i j : ℕ} (hC : 0 < C) (hj : j < C) :
    (i * C + j) / C = i := by
  rw [mul_comm, Nat.mul_add_div hC, Nat.div_eq_of_lt hj, add_zero]

theorem rowMajor_mod {C i j : ℕ} (hj : j < C) :
    (i * C + j) % C = j := by
  rw [mul_comm, Nat.mul_add_mod, Nat.mod_eq_of_lt hj]

theorem rowMajor_lt {R C i j : ℕ} (hi : i < R) (hj : j < C) :
    i * C + j < R * C := by
  calc i * C + j < i * C + C := by omega
    _ = (i + 1) * C := by ring
    _ ≤ R * C := Nat.mul_le_mul_right _ (by omega)

/-- Reading the fresh buffer written by a copy at raw cell `k` yields the
row-major element `k` of the copied view. -/
theorem copyMem_at {α : Type} (m : Mem α) (a : Arr) (nid k : ℕ)
    (hk : k < a.rows * a.cols) :
    copyMem m a nid nid k = readCell m a (k / a.cols) (k % a.cols) := by
  simp [copyMem, hk]

/-- Reading a copy through its own (contiguous) array object returns the
content of the source view. -/
theorem readCell_copy_contig {α : Type} (m : Mem α) (a : Arr) (nid i j : ℕ)
    (hC : 0 < a.cols) (hi : i < a.rows) (hj : j < a.cols) :
    readCell (copyMem m a nid) (copyOut a nid) i j = readCell m a i j := by
  have hidx : (copyOut a nid).idx i j = i * a.cols + j := by
    simp [copyOut, Arr.idx]
  rw [readCell, hidx]
  show copyMem m a nid nid _ = _
  rw [copyMem_at m a nid _ (rowMajor_lt hi hj), rowMajor_div hC hj,
    rowMajor_mod hj]

/-- For a contiguous row layout, the lapped coordinate `(i, j)` and the
unlapped coordinate `(i + j / C, j % C)` address the same buffer cell. -/
theorem idx_div_mod (x : Arr) (hrs : x.rstride = x.cols)
    (hcs : x.cstride = 1) (i j : ℕ) :
    x.idx (i + j / x.cols) (j % x.cols) = x.off + i * x.cols + j := by
  have hdm : x.cols * (j / x.cols) + j % x.cols = j := Nat.div_add_mod j x.cols
  simp only [Arr.idx, hrs, hcs, mul_one]
  have hexp : (i + j / x.cols) * x.cols = i * x.cols + j / x.cols * x.cols := by
    ring
  have hcomm : j / x.cols * x.cols = x.cols * (j / x.cols) := by ring
  omega

/-- Pointwise description of writing the first `n` cells of a row through a
view with unit column stride. -/
theorem writeRowN_apply {α : Type} (m : Mem α) (a : Arr) (i : ℕ) (w : ℕ → α)
    (hcs : a.cstride = 1) (n : ℕ) (b k : ℕ) :
    writeRowN m a i w n b k =
      if b = a.bufId ∧ a.idx i 0 ≤ k ∧ k < a.idx i 0 + n then
        w (k - a.idx i 0)
      else m b k := by
  induction n with
  | zero =>
    rw [writeRowN, if_neg]
    omega
  | succ n ih =>
    have hidx : a.idx i n = a.idx i 0 + n := by
      simp [Arr.idx, hcs]
    rw [writeRowN, writeCell]
    by_cases hbk : b = a.bufId ∧ k = a.idx i n
    · rw [if_pos hbk, if_pos (by omega)]
      congr 1
      omega
    · rw [if_neg hbk, ih]
      by_cases hb : b = a.bufId
      · subst hb
        by_cases hk1 : a.idx i 0 ≤ k ∧ k < a.idx i 0 + n
        · rw [if_pos ⟨rfl, hk1.1, hk1.2⟩, if_pos ⟨rfl, hk1.1, by omega⟩]
        · rw [if_neg (by tauto), if_neg (by omega)]
      · rw [if_neg (by tauto), if_neg (by tauto)]

/-- `unlap` with the overlap factor used by `lap` undoes the reshaping: the
view metadata returns to the original array. -/
theorem unlapView_lapView (a : Arr) (L : ℕ) (hL : 1 ≤ L)
    (hLr : L ≤ a.rows + 1) :
    unlapView (lapView a L) L = a := by
  have hrows : a.rows + 1 - L + L - 1 = a.rows := by omega
  have hcols : a.cols * L / L = a.cols := by
    rw [Nat.mul_div_cancel _ (by omega : 0 < L)]
  show ({ a with
            rows := a.rows + 1 - L + L - 1,
            cols := a.cols * L / L } : Arr) = a
  rw [hrows, hcols]

/-- `unlap` with `copy=True` is a copy of the unlap view. -/
theorem unlap_copy_eq {α : Type} (m : Mem α) (x : Arr) (L n : ℕ) :
    unlap m x L true n = npCopy m (unlapView x L) n := rfl

/-- Two matrix-vector products agree when the vectors agree on the indices
the product reads. -/
theorem matvec_congr {α : Type} [CommRing α] (C : ℕ) (T : ℕ → ℕ → α)
    (v1 v2 : ℕ → α) (h : ∀ j, j < C → v1 j = v2 j) :
    matvec C T v1 = matvec C T v2 := by
  funext k
  unfold matvec
  congr 1
  apply List.map_congr_left
  intro j hj
  rw [h j (List.mem_range.mp hj)]

/-- Cells at or beyond row `n` of a contiguous framed signal are untouched
by the first `n` steps of the plain transform loop. -/
theorem plainStage_le {α : Type} [CommRing α] (m : Mem α) (x : Arr)
    (T : ℕ → ℕ → α) (n i j : ℕ) (hrs : x.rstride = x.cols)
    (hcs : x.cstride = 1) (hi : n ≤ i) :
    readCell (plainStage m x T n) x i j = readCell m x i j := by
  have hidx : x.idx i j = x.off + i * x.cols + j * 1 := by
    simp [Arr.idx, hrs, hcs]
  have hmul : n * x.cols ≤ i * x.cols := Nat.mul_le_mul_right _ hi
  rw [readCell, readCell]
  show plainStage m x T n x.bufId (x.idx i j) = m x.bufId (x.idx i j)
  rw [plainStage, if_neg]
  omega

/-- The transform loop on a plain contiguous framed signal with a square
transform matrix: after `n` rows it has produced exactly `plainStage n`. -/
theorem transformGo_plain {α : Type} [CommRing α] (m : Mem α) (x : Arr)
    (T : ℕ → ℕ → α) (hrs : x.rstride = x.cols) (hcs : x.cstride = 1)
    (hC : 0 < x.cols) :
    ∀ n, n ≤ x.rows → transformGo m x x.cols T n = .ok (plainStage m x T n) := by
  intro n
  induction n with
  | zero =>
    intro _
    have h0 : plainStage m x T 0 = m := by
      funext b k
      rw [plainStage, if_neg (by omega)]
    show (.ok m : Except NpError (Mem α)) = .ok (plainStage m x T 0)
    rw [h0]
  | succ n ih =>
    intro hn
    simp only [transformGo]
    rw [ih (by omega)]
    show assignRow (plainStage m x T n) x n x.cols
        (matvec x.cols T (fun j => readCell (plainStage m x T n) x n j)) =
      .ok (plainStage m x T (n + 1))
    have hrow : matvec x.cols T (fun j => readCell (plainStage m x T n) x n j) =
        matvec x.cols T (fun j => readCell m x n j) :=
      matvec_congr _ _ _ _
        (fun j _ => plainStage_le m x T n n j hrs hcs (le_refl n))
    rw [hrow, assignRow, if_pos rfl]
    congr 1
    funext b k
    rw [writeRow, writeRowN_apply _ _ _ _ hcs]
    have hidx0 : x.idx n 0 = x.off + n * x.cols := by
      simp [Arr.idx, hrs, hcs]
    have hplus : (n + 1) * x.cols = n * x.cols + x.cols := by ring
    by_cases hb : b = x.bufId
    · subst hb
      by_cases hin : x.idx n 0 ≤ k ∧ k < x.idx n 0 + x.cols
      · rw [if_pos ⟨rfl, hin.1, hin.2⟩]
        show _ = plainStage m x T (n + 1) x.bufId k
        rw [plainStage, if_pos (by omega)]
        have h1 : k - x.off = n * x.cols + (k - x.off - n * x.cols) := by omega
        have hdiv : (k - x.off) / x.cols = n := by
          rw [h1, rowMajor_div hC (by omega)]
        have hmod : (k - x.off) % x.cols = k - x.idx n 0 := by
          rw [h1, rowMajor_mod (by omega)]
          omega
        rw [hdiv, hmod]
      · rw [if_neg (by tauto)]
        show plainStage m x T n x.bufId k = plainStage m x T (n + 1) x.bufId k
        rw [plainStage, plainStage]
        by_cases hin2 : x.off ≤ k ∧ k < x.off + n * x.cols
        · rw [if_pos ⟨rfl, hin2.1, hin2.2⟩, if_pos ⟨rfl, hin2.1, by omega⟩]
        · rw [if_neg (by omega), if_neg (by omega)]
    · rw [if_neg (by tauto)]
      show plainStage m x T n b k = plainStage m x T (n + 1) b k
      rw [plainStage, plainStage, if_neg (by tauto), if_neg (by tauto)]

/-- The transform loop over an overlap-2 lapped view (frame stride `C`,
row length `2C`) produces exactly the sequential left-to-right recurrence
`seqRecBuf` on the underlying buffer. -/
theorem transformGo_lapped {α : Type} [CommRing α] (m : Mem α) (v : Arr)
    (C : ℕ) (T : ℕ → ℕ → α) (hoff : v.off = 0) (hcs : v.cstride = 1)
    (hrs : v.rstride = C) (hcols : v.cols = 2 * C) :
    ∀ n, transformGo m v (2 * C) T n =
      .ok (fun b k =>
        if b = v.bufId then seqRecBuf C T (m v.bufId) n k else m b k) := by
  intro n
  induction n with
  | zero =>
    show (.ok m : Except NpError (Mem α)) = _
    congr 1
    funext b k
    rw [seqRecBuf]
    by_cases hb : b = v.bufId
    · rw [if_pos hb, hb]
    · rw [if_neg hb]
  | succ n ih =>
    simp only [transformGo]
    rw [ih]
    show assignRow
        (fun b k => if b = v.bufId then seqRecBuf C T (m v.bufId) n k else m b k)
        v n (2 * C)
        (matvec v.cols T (fun j =>
          readCell
            (fun b k => if b = v.bufId then seqRecBuf C T (m v.bufId) n k else m b k)
            v n j)) =
      .ok (fun b k =>
        if b = v.bufId then seqRecBuf C T (m v.bufId) (n + 1) k else m b k)
    have hidx : ∀ j, v.idx n j = n * C + j := by
      intro j
      simp [Arr.idx, hoff, hcs, hrs]
    have hread : (fun j =>
        readCell
          (fun b k => if b = v.bufId then seqRecBuf C T (m v.bufId) n k else m b k)
          v n j) =
        fun j => seqRecBuf C T (m v.bufId) n (n * C + j) := by
      funext j
      rw [readCell]
      show (if v.bufId = v.bufId then seqRecBuf C T (m v.bufId) n (v.idx n j)
        else m v.bufId (v.idx n j)) = _
      rw [if_pos rfl, hidx]
    rw [hread, assignRow, if_pos hcols.symm]
    congr 1
    funext b k
    rw [writeRow, writeRowN_apply _ _ _ _ hcs]
    have hidx0 : v.idx n 0 = n * C := by
      simp [Arr.idx, hoff, hcs, hrs]
    by_cases hb : b = v.bufId
    · subst hb
      by_cases hin : v.idx n 0 ≤ k ∧ k < v.idx n 0 + v.cols
      · rw [if_pos ⟨rfl, hin.1, hin.2⟩, if_pos rfl, seqRecBuf, seqBuf]
        rw [if_pos (by omega)]
        rw [matvec]
        have harg : k - v.idx n 0 = k - n * C := by
          rw [hidx0]
        rw [harg, hcols]
      · rw [if_neg (by tauto), if_pos rfl, if_pos rfl, seqRecBuf, seqBuf,
          if_neg (by omega)]
    · rw [if_neg (by tauto), if_neg hb, if_neg hb]

/-- Unclipped description of `slice` when the bounds lie inside the
matrix. -/
theorem slice_val {α : Type} (d : MatF α) (r0 r1 c0 c1 : ℕ)
    (h0 : r0 ≤ d.rows) (h1 : r1 ≤ d.rows) (h2 : c0 ≤ d.cols)
    (h3 : c1 ≤ d.cols) :
    slice d r0 r1 c0 c1 =
      ⟨r1 - r0, c1 - c0, fun i j => d.val (r0 + i) (c0 + j)⟩ := by
  rw [slice]
  have e1 : min r0 d.rows = r0 := by omega
  have e2 : min r1 d.rows = r1 := by omega
  have e3 : min c0 d.cols = c0 := by omega
  have e4 : min c1 d.cols = c1 := by omega
  rw [e1, e2, e3, e4]

/-! Claim theorems. -/

/-- C10: the `L` argument of `utils.copy` has no effect on the result: for
every heap, lapped array and fresh buffer ids, `copy(x, L1)` and
`copy(x, L2)` return the same heap and the same array (identical shape and
element values), because `copy` invokes `flatten(x, copy=True)` without
forwarding `L`, so `flatten` always runs with its default overlap factor
`L = 2`. -/
theorem copy_overlap_argument_irrelevant {α : Type} (m : Mem α) (x : Arr)
    (L1 L2 n1 n2 : ℕ) :
    copy m x L1 n1 n2 = copy m x L2 n1 n2 := rfl

/-- C4: evaluating `utils.copy` at an overlap-4 lapped view of the framed
signal with buffer content `0..9` and shape `(5, 2)` shows the bug: the
result is allocated in a fresh buffer (zero aliasing holds) but its logical
content differs from the input, element `(0, 4)` reading `2` where the input
reads `4`, because `flatten` inside `copy` runs with its default `L = 2`
instead of the passed overlap factor `4`. -/
theorem copy_default_overlap_bug :
    readCell (fun b k => if b = 0 then (k : ℤ) else 0)
      (lapView (⟨0, 0, 5, 2, 2, 1, 10⟩ : Arr) 4) 0 4 = 4 ∧
    readCell
      (copy (fun b k => if b = 0 then (k : ℤ) else 0)
        (lapView (⟨0, 0, 5, 2, 2, 1, 10⟩ : Arr) 4) 4 1 2).1
      (copy (fun b k => if b = 0 then (k : ℤ) else 0)
        (lapView (⟨0, 0, 5, 2, 2, 1, 10⟩ : Arr) 4) 4 1 2).2 0 4 = 2 ∧
    (copy (fun b k => if b = 0 then (k : ℤ) else 0)
      (lapView (⟨0, 0, 5, 2, 2, 1, 10⟩ : Arr) 4) 4 1 2).2.bufId ≠
      (lapView (⟨0, 0, 5, 2, 2, 1, 10⟩ : Arr) 4).bufId := by
  refine ⟨by decide, by decide, by decide⟩

/-- C2: `lap(x, L, copy=False)` on a contiguous framed signal of shape
`(R, C)` leaves the heap untouched and returns a view on the same buffer of
shape `(R - L + 1, C * L)` whose element `(i, j)` addresses the same storage
cell as `x[i + j / C, j % C]`; consequently writing any element of the view
is observable through `x` at every coordinate that aliases that cell. -/
theorem lap_view_aliasing {α : Type} (m : Mem α) (x : Arr) (L n1 : ℕ)
    (t : α) (hrs : x.rstride = x.cols) (hcs : x.cstride = 1)
    (hC : 0 < x.cols) (hL1 : 1 ≤ L) (hLR : L ≤ x.rows) :
    (lap m x L false n1).1 = m ∧
    (lap m x L false n1).2.bufId = x.bufId ∧
    (lap m x L false n1).2.rows = x.rows - L + 1 ∧
    (lap m x L false n1).2.cols = x.cols * L ∧
    ∀ i j, i < x.rows - L + 1 → j < x.cols * L →
      (lap m x L false n1).2.idx i j = x.idx (i + j / x.cols) (j % x.cols) ∧
      ∀ i2 j2, x.idx i2 j2 = (lap m x L false n1).2.idx i j →
        readCell (writeCell m (lap m x L false n1).2 i j t) x i2 j2 = t := by
  refine ⟨rfl, rfl, by simp [lap, as_strided]; omega, rfl, ?_⟩
  intro i j hi hj
  have hidx : (lap m x L false n1).2.idx i j = x.off + i * x.cols + j := by
    simp [lap, as_strided, Arr.idx, hrs, hcs]
  constructor
  · rw [hidx, idx_div_mod x hrs hcs]
  · intro i2 j2 h2
    rw [readCell, writeCell, if_pos ⟨rfl, h2⟩]

/-- C2 witness: the aliasing theorem instantiated at a concrete shape-(3, 2)
framed signal with overlap 2. -/
theorem lap_view_aliasing_eval :
    (lap (fun (b k : ℕ) => (100 * b + k : ℤ)) (⟨0, 0, 3, 2, 2, 1, 6⟩ : Arr)
        2 false 7).1 = (fun (b k : ℕ) => (100 * b + k : ℤ)) ∧
    (lap (fun (b k : ℕ) => (100 * b + k : ℤ)) (⟨0, 0, 3, 2, 2, 1, 6⟩ : Arr)
        2 false 7).2.bufId = (⟨0, 0, 3, 2, 2, 1, 6⟩ : Arr).bufId ∧
    (lap (fun (b k : ℕ) => (100 * b + k : ℤ)) (⟨0, 0, 3, 2, 2, 1, 6⟩ : Arr)
        2 false 7).2.rows = 3 - 2 + 1 ∧
    (lap (fun (b k : ℕ) => (100 * b + k : ℤ)) (⟨0, 0, 3, 2, 2, 1, 6⟩ : Arr)
        2 false 7).2.cols = 2 * 2 ∧
    ∀ i j, i < 3 - 2 + 1 → j < 2 * 2 →
      (lap (fun (b k : ℕ) => (100 * b + k : ℤ)) (⟨0, 0, 3, 2, 2, 1, 6⟩ : Arr)
          2 false 7).2.idx i j =
        (⟨0, 0, 3, 2, 2, 1, 6⟩ : Arr).idx (i + j / 2) (j % 2) ∧
      ∀ i2 j2,
        (⟨0, 0, 3, 2, 2, 1, 6⟩ : Arr).idx i2 j2 =
          (lap (fun (b k : ℕ) => (100 * b + k : ℤ)) (⟨0, 0, 3, 2, 2, 1, 6⟩ : Arr)
            2 false 7).2.idx i j →
        readCell
          (writeCell (fun (b k : ℕ) => (100 * b + k : ℤ))
            (lap (fun (b k : ℕ) => (100 * b + k : ℤ))
              (⟨0, 0, 3, 2, 2, 1, 6⟩ : Arr) 2 false 7).2 i j (-5))
          (⟨0, 0, 3, 2, 2, 1, 6⟩ : Arr) i2 j2 = -5 :=
  lap_view_aliasing (fun (b k : ℕ) => (100 * b + k : ℤ))
    (⟨0, 0, 3, 2, 2, 1, 6⟩ : Arr) 2 7 (-5) rfl rfl (by decide) (by decide)
    (by decide)

/-- C8 counterexample: `lap_like` performs no bounds check and raises
nothing.  With an unlapped `x` whose buffer holds only 2 elements and a
lapped `y` addressing cells up to offset 3, `lap_like(x, y)` still returns a
view of the full shape of `y`, and that view addresses cells beyond the end
of the buffer of `x` - an out-of-bounds view is produced instead of the
InvalidArgument failure the claim demands. -/
theorem lap_like_no_bounds_check :
    (lap_like (⟨0, 0, 1, 2, 2, 1, 2⟩ : Arr) (⟨1, 0, 2, 2, 2, 1, 4⟩ : Arr)).rows = 2 ∧
    (lap_like (⟨0, 0, 1, 2, 2, 1, 2⟩ : Arr) (⟨1, 0, 2, 2, 2, 1, 4⟩ : Arr)).cols = 2 ∧
    ¬ inBounds (lap_like (⟨0, 0, 1, 2, 2, 1, 2⟩ : Arr) (⟨1, 0, 2, 2, 2, 1, 4⟩ : Arr)) := by
  refine ⟨rfl, rfl, fun h => ?_⟩
  have h2 := h 1 (by decide) 1 (by decide)
  simp [lap_like, Arr.idx] at h2

/-- C8 (amended): `lap_like(x, y)` always returns a view whose shape and
strides exactly equal those of `y`, based on the buffer of `x`; it never
fails, and whenever the buffer of `x` holds at least as many elements as the
view of `y` addresses, the resulting view stays in bounds.  (For an
undersized `x` it silently produces an out-of-bounds view, see the
counterexample.) -/
theorem lap_like_geometry :
    (∀ x y : Arr,
      (lap_like x y).rows = y.rows ∧ (lap_like x y).cols = y.cols ∧
      (lap_like x y).rstride = y.rstride ∧
      (lap_like x y).cstride = y.cstride ∧
      (lap_like x y).bufId = x.bufId ∧ (lap_like x y).off = x.off ∧
      (lap_like x y).bufLen = x.bufLen) ∧
    (∀ x y : Arr, x.off = 0 → span y ≤ x.bufLen →
      inBounds (lap_like x y)) := by
  refine ⟨fun x y => ⟨rfl, rfl, rfl, rfl, rfl, rfl, rfl⟩, ?_⟩
  intro x y hoff hspan i hi j hj
  have hi2 : i < y.rows := hi
  have hj2 : j < y.cols := hj
  have hsy : span y = (y.rows - 1) * y.rstride + (y.cols - 1) * y.cstride + 1 := by
    rw [span, if_neg (by omega)]
  have h1 : i * y.rstride ≤ (y.rows - 1) * y.rstride :=
    Nat.mul_le_mul_right _ (by omega)
  have h2 : j * y.cstride ≤ (y.cols - 1) * y.cstride :=
    Nat.mul_le_mul_right _ (by omega)
  have hix : (lap_like x y).idx i j = x.off + i * y.rstride + j * y.cstride := rfl
  rw [hix]
  show x.off + i * y.rstride + j * y.cstride < x.bufLen
  omega

/-- C8 witness: a sufficiently long unlapped buffer (6 elements) re-lapped
to the geometry of a lapped array addressing exactly 6 cells produces an
in-bounds view of that exact shape. -/
theorem lap_like_geometry_eval :
    inBounds (lap_like (⟨0, 0, 1, 6, 6, 1, 6⟩ : Arr)
      (⟨1, 0, 2, 4, 2, 1, 8⟩ : Arr)) ∧
    (lap_like (⟨0, 0, 1, 6, 6, 1, 6⟩ : Arr)
      (⟨1, 0, 2, 4, 2, 1, 8⟩ : Arr)).rows = 2 ∧
    (lap_like (⟨0, 0, 1, 6, 6, 1, 6⟩ : Arr)
      (⟨1, 0, 2, 4, 2, 1, 8⟩ : Arr)).cols = 4 :=
  ⟨lap_like_geometry.2 _ _ rfl (by decide),
    ((lap_like_geometry.1 (⟨0, 0, 1, 6, 6, 1, 6⟩ : Arr)
      (⟨1, 0, 2, 4, 2, 1, 8⟩ : Arr)).1).trans rfl,
    ((lap_like_geometry.1 (⟨0, 0, 1, 6, 6, 1, 6⟩ : Arr)
      (⟨1, 0, 2, 4, 2, 1, 8⟩ : Arr)).2.1).trans rfl⟩

/-- C1: for every framed signal `x` of shape `(R, C)` and overlap factor `L`
with `1 ≤ L ≤ R`, the round trip `unlap(lap(x, L), L)` (with the default
copies) returns an array of shape `(R, C)` equal to `x` element-wise, and
`flatten(lap(x, L), L)` returns the row-major linearization of `x`. -/
theorem lap_unlap_roundtrip {α : Type} (m : Mem α) (x : Arr)
    (L n1 n2 n3 n4 : ℕ) (hrs : x.rstride = x.cols) (hcs : x.cstride = 1)
    (hC : 0 < x.cols) (hL1 : 1 ≤ L) (hLR : L ≤ x.rows) :
    ((roundtrip m x L n1 n2).2.rows = x.rows ∧
     (roundtrip m x L n1 n2).2.cols = x.cols ∧
     ∀ i j, i < x.rows → j < x.cols →
       readCell (roundtrip m x L n1 n2).1 (roundtrip m x L n1 n2).2 i j =
         readCell m x i j) ∧
    ∀ k, k < x.rows * x.cols →
      readCell (lapFlatten m x L n1 n3 n4).1 (lapFlatten m x L n1 n3 n4).2 0 k =
        readCell m x (k / x.cols) (k % x.cols) := by
  have hvLr : L ≤ (copyOut x n1).rows + 1 := by
    simp only [copyOut]
    omega
  have hkey : roundtrip m x L n1 n2 =
      npCopy (copyMem m x n1) (copyOut x n1) n2 := by
    show unlap (copyMem m x n1) (lapView (copyOut x n1) L) L true n2 = _
    rw [unlap_copy_eq, unlapView_lapView (copyOut x n1) L hL1 hvLr]
  constructor
  · rw [hkey]
    refine ⟨rfl, rfl, ?_⟩
    intro i j hi hj
    have hread : readCell (npCopy (copyMem m x n1) (copyOut x n1) n2).1
        (npCopy (copyMem m x n1) (copyOut x n1) n2).2 i j =
        readCell (copyMem m x n1) (copyOut x n1) i j :=
      readCell_copy_contig _ _ _ _ _ hC hi hj
    rw [hread]
    exact readCell_copy_contig _ _ _ _ _ hC hi hj
  · intro k hk
    have hflat : lapFlatten m x L n1 n3 n4 =
        (copyMem (copyMem m x n1) (copyOut x n1) n3,
         oneD (copyOut (copyOut x n1) n3)) := by
      show ravel (unlap (copyMem m x n1) (lapView (copyOut x n1) L) L true n3).1
        (unlap (copyMem m x n1) (lapView (copyOut x n1) L) L true n3).2 n4 = _
      rw [unlap_copy_eq, unlapView_lapView (copyOut x n1) L hL1 hvLr]
      rw [ravel, if_pos ⟨rfl, rfl⟩]
      rfl
    rw [hflat]
    have hix : (oneD (copyOut (copyOut x n1) n3)).idx 0 k = k := by
      simp [oneD, copyOut, Arr.idx]
    rw [readCell, hix]
    show copyMem (copyMem m x n1) (copyOut x n1) n3 n3 k = _
    rw [copyMem_at _ _ _ _ (by simpa [copyOut] using hk)]
    have hdiv : k / (copyOut x n1).cols = k / x.cols := rfl
    have hmod : k % (copyOut x n1).cols = k % x.cols := rfl
    rw [hdiv, hmod]
    exact readCell_copy_contig _ _ _ _ _ hC
      ((Nat.div_lt_iff_lt_mul hC).mpr hk) (Nat.mod_lt _ hC)

/-- C1 witness: the round-trip theorem instantiated at a concrete shape-(3, 2)
framed signal with overlap 2 and fresh buffer ids 1..4. -/
theorem lap_unlap_roundtrip_eval :
    ((roundtrip (fun (b k : ℕ) => (10 * b + k : ℤ))
        (⟨0, 0, 3, 2, 2, 1, 6⟩ : Arr) 2 1 2).2.rows = 3 ∧
     (roundtrip (fun (b k : ℕ) => (10 * b + k : ℤ))
        (⟨0, 0, 3, 2, 2, 1, 6⟩ : Arr) 2 1 2).2.cols = 2 ∧
     ∀ i j, i < 3 → j < 2 →
       readCell (roundtrip (fun (b k : ℕ) => (10 * b + k : ℤ))
           (⟨0, 0, 3, 2, 2, 1, 6⟩ : Arr) 2 1 2).1
         (roundtrip (fun (b k : ℕ) => (10 * b + k : ℤ))
           (⟨0, 0, 3, 2, 2, 1, 6⟩ : Arr) 2 1 2).2 i j =
         readCell (fun (b k : ℕ) => (10 * b + k : ℤ))
           (⟨0, 0, 3, 2, 2, 1, 6⟩ : Arr) i j) ∧
    ∀ k, k < 3 * 2 →
      readCell (lapFlatten (fun (b k : ℕ) => (10 * b + k : ℤ))
          (⟨0, 0, 3, 2, 2, 1, 6⟩ : Arr) 2 1 3 4).1
        (lapFlatten (fun (b k : ℕ) => (10 * b + k : ℤ))
          (⟨0, 0, 3, 2, 2, 1, 6⟩ : Arr) 2 1 3 4).2 0 k =
        readCell (fun (b k : ℕ) => (10 * b + k : ℤ))
          (⟨0, 0, 3, 2, 2, 1, 6⟩ : Arr) (k / 2) (k % 2) :=
  lap_unlap_roundtrip (fun (b k : ℕ) => (10 * b + k : ℤ))
    (⟨0, 0, 3, 2, 2, 1, 6⟩ : Arr) 2 1 2 3 4 rfl rfl (by decide) (by decide)
    (by decide)

/-- C3: `transform` on an overlap-2 lapped view processes the rows strictly
sequentially over the shared buffer, so the heap it produces is exactly the
sequential left-to-right recurrence `seqRecBuf` (each window transformed
after all earlier windows have already written their overlapping cells); and
it is not the independent per-row product: on the concrete buffer `1, 2, 3`
(frame length 1) with the swap matrix, the final cell 2 holds `1`, whereas
the independent product of the original row 1 would put `2` there, because
the pre-transform read of row 1 already sees the post-transform write of
row 0 in the overlapping column. -/
theorem transform_lapped_sequential :
    (∀ (α : Type) [inst : CommRing α] (m : Mem α) (x : Arr) (T : ℕ → ℕ → α),
      x.off = 0 → x.rstride = x.cols → x.cstride = 1 →
      transform m (lapView x 2) (2 * x.cols) T =
        .ok (fun b k =>
          if b = x.bufId then
            seqRecBuf x.cols T (m x.bufId) (x.rows + 1 - 2) k
          else m b k, lapView x 2)) ∧
    cellOf
      (transform (fun (_ k : ℕ) => (k + 1 : ℤ))
        (lapView (⟨0, 0, 3, 1, 1, 1, 3⟩ : Arr) 2) 2
        (fun i j => if (i = 0 ∧ j = 1) ∨ (i = 1 ∧ j = 0) then 1 else 0)) 0 2 ≠
      some (matvec 2
        (fun i j => if (i = 0 ∧ j = 1) ∨ (i = 1 ∧ j = 0) then (1 : ℤ) else 0)
        (fun j => readCell (fun (_ k : ℕ) => (k + 1 : ℤ))
          (lapView (⟨0, 0, 3, 1, 1, 1, 3⟩ : Arr) 2) 1 j) 1) := by
  constructor
  · intro α inst m x T hoff hrs hcs
    rw [transform,
      transformGo_lapped m (lapView x 2) x.cols T hoff hcs hrs (by
        show x.cols * 2 = 2 * x.cols
        ring)]
    rfl
  · decide

/-- C3 witness: the sequential-recurrence theorem instantiated at the
concrete overlap-2 lapped view of a shape-(3, 1) framed signal. -/
theorem transform_lapped_sequential_eval :
    transform (fun (_ k : ℕ) => (k + 1 : ℤ))
      (lapView (⟨0, 0, 3, 1, 1, 1, 3⟩ : Arr) 2) (2 * 1)
      (fun i j => if (i = 0 ∧ j = 1) ∨ (i = 1 ∧ j = 0) then 1 else 0) =
    .ok (fun b k =>
      if b = 0 then
        seqRecBuf 1
          (fun i j => if (i = 0 ∧ j = 1) ∨ (i = 1 ∧ j = 0) then (1 : ℤ) else 0)
          ((fun (_ k : ℕ) => (k + 1 : ℤ)) 0) (3 + 1 - 2) k
      else (fun (_ k : ℕ) => (k + 1 : ℤ)) b k, lapView (⟨0, 0, 3, 1, 1, 1, 3⟩ : Arr) 2) :=
  transform_lapped_sequential.1 ℤ (fun (_ k : ℕ) => (k + 1 : ℤ))
    (⟨0, 0, 3, 1, 1, 1, 3⟩ : Arr)
    (fun i j => if (i = 0 ∧ j = 1) ∨ (i = 1 ∧ j = 0) then 1 else 0)
    rfl rfl rfl

/-- C6 counterexample: the claim quantifies over every transform matrix `T`
of shape `(K, C)`, but for `K = 3`, `C = 2` the in-place row assignment
cannot broadcast a length-3 product into a length-2 row: numpy raises, so
`transform` does not complete (and an in-place assignment can never change
the shape of `x` to `(R, K)` in the first place). -/
theorem transform_nonsquare_fails :
    transform (fun (_ k : ℕ) => (k : ℤ)) (⟨0, 0, 1, 2, 2, 1, 2⟩ : Arr) 3
      (fun _ _ => 1) = .error .broadcastError ∧ (3 : ℕ) ≠ 2 := by
  exact ⟨rfl, by decide⟩

/-- C6 (amended): for a square transform matrix `T` of shape `(C, C)` and a
plain (non-aliased, contiguous) framed signal `x` of shape `(R, C)`,
`transform(x, T)` completes, returns the very same array object `x` (same
buffer, shape still `(R, C) = (R, K)`), leaves row `i` equal to the
matrix-vector product of `T` with the original row `i`, and touches no other
buffer. -/
theorem transform_plain_rows {α : Type} [CommRing α] (m : Mem α) (x : Arr)
    (T : ℕ → ℕ → α) (hrs : x.rstride = x.cols) (hcs : x.cstride = 1)
    (hC : 0 < x.cols) :
    transform m x x.cols T = .ok (plainStage m x T x.rows, x) ∧
    (∀ i c, i < x.rows → c < x.cols →
      readCell (plainStage m x T x.rows) x i c =
        matvec x.cols T (fun j => readCell m x i j) c) ∧
    (∀ b k, b ≠ x.bufId → plainStage m x T x.rows b k = m b k) := by
  refine ⟨?_, ?_, ?_⟩
  · rw [transform, transformGo_plain m x T hrs hcs hC x.rows (le_refl _)]
    rfl
  · intro i c hi hc
    have hidx : x.idx i c = x.off + (i * x.cols + c) := by
      simp [Arr.idx, hrs, hcs]
      ring
    have hlt : i * x.cols + c < x.rows * x.cols := rowMajor_lt hi hc
    rw [readCell]
    show plainStage m x T x.rows x.bufId (x.idx i c) = _
    rw [plainStage, if_pos (by omega)]
    have h2 : x.idx i c - x.off = i * x.cols + c := by omega
    rw [h2, rowMajor_div hC hc, rowMajor_mod hc]
  · intro b k hb
    rw [plainStage, if_neg (by tauto)]

/-- C6 witness: the square-transform theorem instantiated at a concrete
shape-(2, 2) framed signal and a concrete 2-by-2 matrix. -/
theorem transform_plain_rows_eval :
    transform (fun (_ k : ℕ) => (k + 1 : ℤ)) (⟨0, 0, 2, 2, 2, 1, 4⟩ : Arr) 2
        (fun i j => (i + 2 * j : ℤ)) =
      .ok (plainStage (fun (_ k : ℕ) => (k + 1 : ℤ))
        (⟨0, 0, 2, 2, 2, 1, 4⟩ : Arr) (fun i j => (i + 2 * j : ℤ)) 2,
        (⟨0, 0, 2, 2, 2, 1, 4⟩ : Arr)) ∧
    (∀ i c, i < 2 → c < 2 →
      readCell (plainStage (fun (_ k : ℕ) => (k + 1 : ℤ))
          (⟨0, 0, 2, 2, 2, 1, 4⟩ : Arr) (fun i j => (i + 2 * j : ℤ)) 2)
        (⟨0, 0, 2, 2, 2, 1, 4⟩ : Arr) i c =
        matvec 2 (fun i j => (i + 2 * j : ℤ))
          (fun j => readCell (fun (_ k : ℕ) => (k + 1 : ℤ))
            (⟨0, 0, 2, 2, 2, 1, 4⟩ : Arr) i j) c) ∧
    (∀ b k, b ≠ 0 →
      plainStage (fun (_ k : ℕ) => (k + 1 : ℤ)) (⟨0, 0, 2, 2, 2, 1, 4⟩ : Arr)
        (fun i j => (i + 2 * j : ℤ)) 2 b k = k + 1) :=
  transform_plain_rows (fun (_ k : ℕ) => (k + 1 : ℤ))
    (⟨0, 0, 2, 2, 2, 1, 4⟩ : Arr) (fun i j => (i + 2 * j : ℤ)) rfl rfl
    (by decide)

/-- C7 counterexample: the claim requires only `M ≥ 2N`, but the block
assignment `out[N:2N, N:3N] = data[N:, 2N:]` copies a source of width
`M - 2N` into a destination of width `2N`, which broadcasts only when these
match (or the source width is 1).  For `data` of shape `(2, 5)` (`N = 1`,
`M = 5 ≥ 2N`) the source width is `3` and the destination width `2`, so
numpy raises a broadcast error and `make_twoframe` does not complete. -/
theorem make_twoframe_requires_fourfold :
    make_twoframe (⟨2, 5, fun i j => ((10 * i + j : ℕ) : ℤ)⟩ : MatF ℤ) false =
      .error .broadcastError ∧ (2 : ℕ) * 1 ≤ 5 := by
  exact ⟨rfl, by decide⟩

/-- C7 (amended): for `data` of shape `(2N, M)` with `M = 4N` (the shape for
which the two block assignments broadcast, e.g. an MDCT folding matrix of an
even frame length), `make_twoframe(data, False)` completes and returns the
`M`-by-`M` identity-seeded matrix with rows `[N, 2N)` at columns `[N, 3N)`
holding `data` rows `[N, 2N)` columns `[2N, M)`, and rows `[2N, 3N)` at the
same columns holding `data` rows `[0, N)` columns `[0, 2N)`; and
`make_twoframe(data, True)` returns the central `(M-2N)`-by-`(M-2N)` block
of that matrix. -/
theorem make_twoframe_blocks {α : Type} [Zero α] [One α] (N : ℕ)
    (data : MatF α) (hN : 0 < N) (hr : data.rows = 2 * N)
    (hc : data.cols = 4 * N) :
    (∃ out, make_twoframe data false = .ok out ∧ out.rows = 4 * N ∧
      out.cols = 4 * N ∧
      ∀ i j, i < 4 * N → j < 4 * N → out.val i j = twoframeEntry N data i j) ∧
    (∃ outT, make_twoframe data true = .ok outT ∧ outT.rows = 2 * N ∧
      outT.cols = 2 * N ∧
      ∀ i j, i < 2 * N → j < 2 * N →
        outT.val i j = twoframeEntry N data (i + N) (j + N)) := by
  have hN2 : 2 * N / 2 = N := by omega
  have ha : min N (4 * N) = N := by omega
  have hb : min (2 * N) (4 * N) = 2 * N := by omega
  have hcm : min (3 * N) (4 * N) = 3 * N := by omega
  -- the two slices of `data`
  have hsrc1 : slice data N (2 * N) (2 * N) (4 * N) =
      (⟨N, 2 * N, fun i j => data.val (N + i) (2 * N + j)⟩ : MatF α) := by
    rw [slice]
    have e1 : min N data.rows = N := by omega
    have e2 : min (2 * N) data.rows = 2 * N := by omega
    have e3 : min (2 * N) data.cols = 2 * N := by omega
    have e4 : min (4 * N) data.cols = 4 * N := by omega
    simp only [MatF.mk.injEq]
    refine ⟨by omega, by omega, ?_⟩
    funext i j
    rw [e1, e3]
  have hsrc2 : slice data 0 N 0 (2 * N) =
      (⟨N, 2 * N, fun i j => data.val i j⟩ : MatF α) := by
    rw [slice]
    have e1 : min 0 data.rows = 0 := by omega
    have e2 : min N data.rows = N := by omega
    have e3 : min 0 data.cols = 0 := by omega
    have e4 : min (2 * N) data.cols = 2 * N := by omega
    simp only [MatF.mk.injEq]
    refine ⟨by omega, by omega, ?_⟩
    funext i j
    rw [e1, e3]
    simp
  -- the first block assignment
  have hblock1 : setBlock (eye (4 * N) : MatF α) N (2 * N) N (3 * N)
      (⟨N, 2 * N, fun i j => data.val (N + i) (2 * N + j)⟩ : MatF α) =
      .ok ⟨4 * N, 4 * N, fun i j =>
        if N ≤ i ∧ i < 2 * N ∧ N ≤ j ∧ j < 3 * N then data.val i (j + N)
        else if i = j then 1 else 0⟩ := by
    rw [setBlock, if_pos (by
      show (N = min (2 * N) (4 * N) - min N (4 * N) ∨ N = 1) ∧
        (2 * N = min (3 * N) (4 * N) - min N (4 * N) ∨ 2 * N = 1)
      exact ⟨Or.inl (by omega), Or.inl (by omega)⟩)]
    congr 1
    show (⟨4 * N, 4 * N, fun i j =>
        if min N (4 * N) ≤ i ∧ i < min (2 * N) (4 * N) ∧
            min N (4 * N) ≤ j ∧ j < min (3 * N) (4 * N) then
          (⟨N, 2 * N, fun i j => data.val (N + i) (2 * N + j)⟩ : MatF α).val
            (if N = 1 then 0 else i - min N (4 * N))
            (if 2 * N = 1 then 0 else j - min N (4 * N))
        else (eye (4 * N) : MatF α).val i j⟩ : MatF α) = _
    congr 1
    funext i j
    rw [ha, hb, hcm]
    by_cases hreg : N ≤ i ∧ i < 2 * N ∧ N ≤ j ∧ j < 3 * N
    · rw [if_pos hreg, if_pos hreg]
      have hi1 : (if N = 1 then (0 : ℕ) else i - N) = i - N := by
        split <;> omega
      have hj1 : (if 2 * N = 1 then (0 : ℕ) else j - N) = j - N := by
        split <;> omega
      rw [hi1, hj1]
      show data.val (N + (i - N)) (2 * N + (j - N)) = data.val i (j + N)
      congr 1 <;> omega
    · rw [if_neg hreg, if_neg hreg]
      rfl
  -- the second block assignment
  have hblock2 : setBlock
      (⟨4 * N, 4 * N, fun i j =>
        if N ≤ i ∧ i < 2 * N ∧ N ≤ j ∧ j < 3 * N then data.val i (j + N)
        else if i = j then 1 else 0⟩ : MatF α) (2 * N) (3 * N) N (3 * N)
      (⟨N, 2 * N, fun i j => data.val i j⟩ : MatF α) =
      .ok ⟨4 * N, 4 * N, fun i j =>
        if 2 * N ≤ i ∧ i < 3 * N ∧ N ≤ j ∧ j < 3 * N then
          data.val (i - 2 * N) (j - N)
        else if N ≤ i ∧ i < 2 * N ∧ N ≤ j ∧ j < 3 * N then data.val i (j + N)
        else if i = j then 1 else 0⟩ := by
    rw [setBlock, if_pos (by
      show (N = min (3 * N) (4 * N) - min (2 * N) (4 * N) ∨ N = 1) ∧
        (2 * N = min (3 * N) (4 * N) - min N (4 * N) ∨ 2 * N = 1)
      exact ⟨Or.inl (by omega), Or.inl (by omega)⟩)]
    congr 1
    show (⟨4 * N, 4 * N, fun i j =>
        if min (2 * N) (4 * N) ≤ i ∧ i < min (3 * N) (4 * N) ∧
            min N (4 * N) ≤ j ∧ j < min (3 * N) (4 * N) then
          (⟨N, 2 * N, fun i j => data.val i j⟩ : MatF α).val
            (if N = 1 then 0 else i - min (2 * N) (4 * N))
            (if 2 * N = 1 then 0 else j - min N (4 * N))
        else
          (⟨4 * N, 4 * N, fun i j =>
            if N ≤ i ∧ i < 2 * N ∧ N ≤ j ∧ j < 3 * N then data.val i (j + N)
            else if i = j then 1 else 0⟩ : MatF α).val i j⟩ : MatF α) = _
    congr 1
    funext i j
    rw [ha, hb, hcm]
    by_cases hreg : 2 * N ≤ i ∧ i < 3 * N ∧ N ≤ j ∧ j < 3 * N
    · rw [if_pos hreg, if_pos hreg]
      have hi1 : (if N = 1 then (0 : ℕ) else i - 2 * N) = i - 2 * N := by
        split <;> omega
      have hj1 : (if 2 * N = 1 then (0 : ℕ) else j - N) = j - N := by
        split <;> omega
      rw [hi1, hj1]
    · rw [if_neg hreg, if_neg hreg]
  -- nested-if form versus the specification form of the entries
  have hval : ∀ i j,
      (if 2 * N ≤ i ∧ i < 3 * N ∧ N ≤ j ∧ j < 3 * N then
        data.val (i - 2 * N) (j - N)
      else if N ≤ i ∧ i < 2 * N ∧ N ≤ j ∧ j < 3 * N then data.val i (j + N)
      else if i = j then (1 : α) else 0) = twoframeEntry N data i j := by
    intro i j
    rw [twoframeEntry]
    by_cases hA : N ≤ i ∧ i < 2 * N ∧ N ≤ j ∧ j < 3 * N
    · rw [if_neg (by omega), if_pos hA, if_pos hA]
    · by_cases hB : 2 * N ≤ i ∧ i < 3 * N ∧ N ≤ j ∧ j < 3 * N
      · rw [if_pos hB, if_neg hA, if_pos hB]
      · rw [if_neg hB, if_neg hA, if_neg hA, if_neg hB]
  -- assembling `make_twoframe`
  have hfalse : make_twoframe data false =
      .ok ⟨4 * N, 4 * N, fun i j =>
        if 2 * N ≤ i ∧ i < 3 * N ∧ N ≤ j ∧ j < 3 * N then
          data.val (i - 2 * N) (j - N)
        else if N ≤ i ∧ i < 2 * N ∧ N ≤ j ∧ j < 3 * N then data.val i (j + N)
        else if i = j then 1 else 0⟩ := by
    rw [make_twoframe]
    simp only [hr, hc, hN2, hsrc1, hblock1, hsrc2, hblock2]
    rfl
  have htrue : make_twoframe data true =
      .ok ⟨2 * N, 2 * N, fun i j =>
        if 2 * N ≤ N + i ∧ N + i < 3 * N ∧ N ≤ N + j ∧ N + j < 3 * N then
          data.val (N + i - 2 * N) (N + j - N)
        else if N ≤ N + i ∧ N + i < 2 * N ∧ N ≤ N + j ∧ N + j < 3 * N then
          data.val (N + i) (N + j + N)
        else if N + i = N + j then 1 else 0⟩ := by
    rw [make_twoframe]
    simp only [hr, hc, hN2, hsrc1, hblock1, hsrc2, hblock2]
    rw [if_pos trivial, if_neg hN.ne']
    rw [slice_val _ _ _ _ _ (by show N ≤ 4 * N; omega)
      (by show 4 * N - N ≤ 4 * N; omega) (by show N ≤ 4 * N; omega)
      (by show 4 * N - N ≤ 4 * N; omega)]
    have h3N : 4 * N - N - N = 2 * N := by omega
    rw [h3N]
  constructor
  · refine ⟨_, hfalse, rfl, rfl, ?_⟩
    intro i j _ _
    exact hval i j
  · refine ⟨_, htrue, rfl, rfl, ?_⟩
    intro i j _ _
    show (if 2 * N ≤ N + i ∧ N + i < 3 * N ∧ N ≤ N + j ∧ N + j < 3 * N then
        data.val (N + i - 2 * N) (N + j - N)
      else if N ≤ N + i ∧ N + i < 2 * N ∧ N ≤ N + j ∧ N + j < 3 * N then
        data.val (N + i) (N + j + N)
      else if N + i = N + j then (1 : α) else 0) = _
    rw [hval (N + i) (N + j)]
    have hcomm1 : N + i = i + N := by omega
    have hcomm2 : N + j = j + N := by omega
    rw [hcomm1, hcomm2]

/-- C7 witness: the block-structure theorem instantiated at `N = 1` and a
concrete 2-by-4 matrix. -/
theorem make_twoframe_blocks_eval :
    (∃ out, make_twoframe (⟨2, 4, fun i j => ((10 * i + j : ℕ) : ℤ)⟩ : MatF ℤ)
        false = .ok out ∧
      out.rows = 4 * 1 ∧ out.cols = 4 * 1 ∧
      ∀ i j, i < 4 * 1 → j < 4 * 1 →
        out.val i j =
          twoframeEntry 1 (⟨2, 4, fun i j => ((10 * i + j : ℕ) : ℤ)⟩ : MatF ℤ) i j) ∧
    (∃ outT, make_twoframe (⟨2, 4, fun i j => ((10 * i + j : ℕ) : ℤ)⟩ : MatF ℤ)
        true = .ok outT ∧
      outT.rows = 2 * 1 ∧ outT.cols = 2 * 1 ∧
      ∀ i j, i < 2 * 1 → j < 2 * 1 →
        outT.val i j =
          twoframeEntry 1 (⟨2, 4, fun i j => ((10 * i + j : ℕ) : ℤ)⟩ : MatF ℤ)
            (i + 1) (j + 1)) :=
  make_twoframe_blocks 1 (⟨2, 4, fun i j => ((10 * i + j : ℕ) : ℤ)⟩ : MatF ℤ)
    (by decide) rfl rfl

/-- C5 counterexample: the claim states the shift term is `-(N // 2)` (floor
division of `N` by 2, then negated), but the source computes `-N // 2`,
python floor division applied to `-N`, and for odd `N` the two differ by 1.
At `N = 1`, `k = 0`, `n = 1` the code entry is
`cos(pi/4)/sqrt(1/2) = 1` (shift `-1`) while the claimed formula gives
`cos(3*pi/4)/sqrt(1/2) = -1` (shift `0`). -/
theorem mdct_shift_claim_false :
    mdct 1 0 1 = 1 ∧ mdctClaimedEntry 1 0 1 = -1 ∧
    mdct 1 0 1 ≠ mdctClaimedEntry 1 0 1 := by
  have hs2 : (0 : ℝ) < Real.sqrt 2 := Real.sqrt_pos.mpr (by norm_num)
  have hhalf : Real.sqrt ((1 : ℝ) / 2) = (Real.sqrt 2)⁻¹ := by
    rw [one_div, Real.sqrt_inv]
  have hmul : Real.sqrt 2 * Real.sqrt 2 = 2 :=
    Real.mul_self_sqrt (by norm_num)
  have h1 : mdct 1 0 1 = 1 := by
    rw [mdct]
    have hdiv : (-(1 : ℤ)) / 2 = -1 := by decide
    rw [hdiv]
    push_cast
    have harg : Real.pi / 1 * (1 + -1 + 1 / 2) * (0 + 1 / 2) = Real.pi / 4 := by
      ring
    rw [harg, Real.cos_pi_div_four, hhalf]
    rw [div_inv_eq_mul]
    rw [div_mul_eq_mul_div, hmul]
    norm_num
  have h2 : mdctClaimedEntry 1 0 1 = -1 := by
    rw [mdctClaimedEntry]
    have hdiv : -((1 : ℤ) / 2) = 0 := by decide
    rw [hdiv]
    push_cast
    have harg : Real.pi / 1 * (1 + 0 + 1 / 2) * (0 + 1 / 2) =
        Real.pi - Real.pi / 4 := by
      ring
    rw [harg, Real.cos_pi_sub, Real.cos_pi_div_four, hhalf]
    rw [div_inv_eq_mul]
    rw [neg_mul, div_mul_eq_mul_div, hmul]
    norm_num
  refine ⟨h1, h2, ?_⟩
  rw [h1, h2]
  norm_num

/-- C5 (amended): for every positive integer `N`, `mdct(N)` has shape
`(N, 2N)` and entry `(k, n)` equal to
`cos(pi/N * (n + shift + 1/2) * (k + 1/2)) / sqrt(N/2)` where the integer
shift is `floor(-N/2) = -((N + 1) // 2)` (python `-N // 2`), i.e. for odd
`N` it is `-(N // 2) - 1`, half a unit below the real number `-N/2`. -/
theorem mdct_entry_formula (N : ℤ) (hN : 0 < N) (k n : ℕ) :
    mdctShape N = .ok (N.toNat, (2 * N).toNat) ∧
    mdct N k n = Real.cos (Real.pi / (N : ℝ) *
        ((n : ℝ) - (((N + 1) / 2 : ℤ) : ℝ) + 1 / 2) * ((k : ℝ) + 1 / 2)) /
      Real.sqrt ((N : ℝ) / 2) := by
  constructor
  · rw [mdctShape, if_neg (by omega)]
    have hcomm : (N * 2).toNat = (2 * N).toNat := by omega
    rw [hcomm]
  · rw [mdct]
    have hsh : (-N) / 2 = -((N + 1) / 2) := by omega
    rw [hsh]
    have hcast : (n : ℝ) + ((-((N + 1) / 2) : ℤ) : ℝ) + 1 / 2 =
        (n : ℝ) - (((N + 1) / 2 : ℤ) : ℝ) + 1 / 2 := by
      push_cast
      ring
    rw [hcast]

/-- C5 witness: the corrected entry formula instantiated at `N = 3`,
`k = 0`, `n = 0`. -/
theorem mdct_entry_formula_eval :
    mdctShape 3 = .ok ((3 : ℤ).toNat, (2 * 3 : ℤ).toNat) ∧
    mdct 3 0 0 = Real.cos (Real.pi / ((3 : ℤ) : ℝ) *
        (((0 : ℕ) : ℝ) - ((((3 : ℤ) + 1) / 2 : ℤ) : ℝ) + 1 / 2) *
        (((0 : ℕ) : ℝ) + 1 / 2)) /
      Real.sqrt (((3 : ℤ) : ℝ) / 2) :=
  mdct_entry_formula 3 (by decide) 0 0

/-- C9 counterexample: `mdct` and `dct4` contain no validation and no
InvalidArgument error path.  At `N = -1` both simply complete and return
empty matrices - the `np.arange` calls produce empty ranges, so every shape
entry is zero and no failure at all occurs (only a floating-point warning
from `np.sqrt`).  At `N = 0` both do fail, but with a ZeroDivisionError
from `np.pi / N`, raised only after the arange/meshgrid work - neither an
InvalidArgument kind nor an eager check. -/
theorem mdct_dct4_nonpositive_no_failure :
    mdctShape (-1) = .ok (0, 0) ∧ dct4Shape (-1) none = .ok (0, 0) ∧
    mdctShape 0 = .error .zeroDivisionError ∧
    dct4Shape 0 none = .error .zeroDivisionError := by
  refine ⟨rfl, rfl, rfl, rfl⟩

/-- C9 (amended): `mdct` and `dct4` perform no validation.  For negative
`N` they complete and return degenerate empty (0-by-0) matrices; for
`N = 0` they raise ZeroDivisionError (from `np.pi / N`, after the
arange/meshgrid work, so neither eagerly nor as an InvalidArgument kind);
for positive `N` they never fail and return matrices of shape `(N, 2N)`
and `(N, N)` respectively. -/
theorem kernelShapes (N : ℤ) :
    (N < 0 → mdctShape N = .ok (0, 0) ∧ dct4Shape N none = .ok (0, 0)) ∧
    (N = 0 → mdctShape N = .error .zeroDivisionError ∧
      dct4Shape N none = .error .zeroDivisionError) ∧
    (0 < N → mdctShape N = .ok (N.toNat, 2 * N.toNat) ∧
      dct4Shape N none = .ok (N.toNat, N.toNat)) := by
  refine ⟨?_, ?_, ?_⟩
  · intro hneg
    have h1 : N.toNat = 0 := by omega
    have h2 : (N * 2).toNat = 0 := by omega
    constructor
    · rw [mdctShape, if_neg (by omega), h1, h2]
    · rw [dct4Shape, if_neg (by omega)]
      show Except.ok ((N.toNat, N.toNat) : ℕ × ℕ) = _
      rw [h1]
  · intro hzero
    subst hzero
    exact ⟨rfl, rfl⟩
  · intro hpos
    have h2 : (N * 2).toNat = 2 * N.toNat := by omega
    constructor
    · rw [mdctShape, if_neg (by omega), h2]
    · rw [dct4Shape, if_neg (by omega)]
      rfl

/-- C9 witness: the outcome theorem instantiated at `N = -2`, `N = 0` and
`N = 3`. -/
theorem kernelShapes_eval :
    (mdctShape (-2) = .ok (0, 0) ∧ dct4Shape (-2) none = .ok (0, 0)) ∧
    (mdctShape 0 = .error .zeroDivisionError ∧
      dct4Shape 0 none = .error .zeroDivisionError) ∧
    (mdctShape 3 = .ok ((3 : ℤ).toNat, 2 * (3 : ℤ).toNat) ∧
      dct4Shape 3 none = .ok ((3 : ℤ).toNat, (3 : ℤ).toNat)) :=
  ⟨(kernelShapes (-2)).1 (by decide), (kernelShapes 0).2.1 rfl,
    (kernelShapes 3).2.2 (by decide)⟩

end LappedTransforms
